import Mathlib

/-!
Shallow embedding of the `Faucet` contract (src/contracts/FaucetContract.sol,
src/contracts/Owned.sol, src/contracts/IFaucet.sol, and the abstract base
Logger.sol, whose source is kept at the end of src/unnamed/part_003) and
proofs of the spec's claims about it.

Account identities (160-bit addresses) are modelled as `Nat`, with `0` the
zero/default address.  Value amounts (wei) are `Nat`.  A contract call either
returns a new state (`Except.ok`) or reverts (`Except.error`); the execution
environment rolls a reverted call back, which the `step` function models by
keeping the pre-call state.
-/

namespace Faucet

/-- Account identities; `0` is the environment's zero/default identity. -/
abbrev Addr : Type := Nat

/-- The failure kinds at the vault boundary: `LimitExceeded` for the
`limitWithdraw` require, `InsufficientFunds` for a transfer the balance cannot
cover, `NotAuthorized` for the `onlyOwner` require in Owned.sol. -/
inductive VaultError where
  | LimitExceeded
  | InsufficientFunds
  | NotAuthorized
deriving DecidableEq

/-- State of the deployed `Faucet` contract together with the ambient account
balances of the execution environment.  `owner` comes from Owned.sol;
`numOfFunders`, `funders` (mapping address => bool) and `lutFunders`
(mapping uint => address, default `0`) are the contract's storage;
`balance` is the contract's own ether balance and `accounts` the external
balances credited by `transfer`.  The one further storage slot the contract
inherits, Logger.sol's `testNum`, is written exactly once (to `1000`, by the
constructor) and read by nothing, so it is embedded as the constant
`testNum` below rather than as a field. -/
structure State where
  owner : Addr
  numOfFunders : Nat
  funders : Addr → Bool
  lutFunders : Nat → Addr
  balance : Nat
  accounts : Addr → Nat

/-- `test3()` (Logger.sol, an abstract base of `Faucet`; its source sits at
the end of src/unnamed/part_003): `internal pure returns(uint) { return
100; }`.  Being `pure`, it reads and writes no state, so it embeds as the
constant it returns. -/
def test3 : Nat := 100

/-- `testNum` (Logger.sol): public storage that Logger's constructor sets to
`1000` and that no other code ever writes, so over the contract's whole
lifetime it is the constant `1000`. -/
def testNum : Nat := 1000

/-- `test5()` (Logger.sol): `external pure`, calls `test3` and discards the
result, returns `10`; being `pure` it cannot touch state. -/
def test5 : Nat :=
  let _r3 : Nat := test3
  10

/-- `addFunds()` (FaucetContract.sol lines 46-55): the attached value is
credited to the contract balance by the environment before the body runs;
the body calls `test3()` discarding its result (a pure call with no effect),
then records a first-time funder at index `numOfFunders`, which is then
incremented.  Total: no failure path. -/
def addFunds (s : State) (sender : Addr) (value : Nat) : State :=
  let s0 : State := { s with balance := s.balance + value }
  let _r3 : Nat := test3
  if s0.funders sender then s0
  else
    { s0 with
      numOfFunders := s0.numOfFunders + 1
      funders := fun a => if a = sender then true else s0.funders a
      lutFunders := fun i => if i = s0.numOfFunders then sender else s0.lutFunders i }

/-- `withdraw(uint withdrawAmount)` (FaucetContract.sol lines 71-73): the
`limitWithdraw` modifier (lines 23-29) reverts when the amount exceeds
0.1 ether = 100000000000000000 wei; then `payable(msg.sender).transfer`
reverts when the contract balance cannot cover the amount, and otherwise
moves the amount from the contract balance to the sender's account. -/
def withdraw (s : State) (sender : Addr) (withdrawAmount : Nat) :
    Except VaultError State :=
  if withdrawAmount ≤ 100000000000000000 then
    if withdrawAmount ≤ s.balance then
      Except.ok
        { s with
          balance := s.balance - withdrawAmount
          accounts := fun a =>
            if a = sender then s.accounts a + withdrawAmount else s.accounts a }
    else Except.error VaultError.InsufficientFunds
  else Except.error VaultError.LimitExceeded

/-- `test1()` (FaucetContract.sol lines 58-60): `onlyOwner` guard from
Owned.sol lines 15-21, empty body. -/
def test1 (s : State) (sender : Addr) : Except VaultError State :=
  if sender = s.owner then Except.ok s else Except.error VaultError.NotAuthorized

/-- `test2()` (FaucetContract.sol lines 63-65): `onlyOwner` guard, empty body. -/
def test2 (s : State) (sender : Addr) : Except VaultError State :=
  if sender = s.owner then Except.ok s else Except.error VaultError.NotAuthorized

/-- `receive()` (FaucetContract.sol line 32): ether sent directly to the
contract is credited to its balance; the empty body touches no storage. -/
def receive (s : State) (value : Nat) : State :=
  { s with balance := s.balance + value }

/-- `emitLog()` (FaucetContract.sol lines 38-40, overriding Logger.sol's
abstract declaration): constant diagnostic value. -/
def emitLog : String := "Hello World"

/-- `getAllFunders()` (FaucetContract.sol lines 79-87): the array
`[lutFunders 0, …, lutFunders (numOfFunders - 1)]`.  This is also the spec's
`funderOrder` sequence, which `getAllFunders` returns unchanged. -/
def getAllFunders (s : State) : List Addr :=
  (List.range s.numOfFunders).map s.lutFunders

/-- `getFunderAtIndex(uint8 index)` (FaucetContract.sol lines 94-96): the
argument is an 8-bit unsigned integer, so the expressible indices are exactly
`Fin 256`; the mapping lookup itself is unbounded and returns the stored
value, `0` for a never-written key. -/
def getFunderAtIndex (s : State) (index : Fin 256) : Addr :=
  s.lutFunders index.val

/-- A transaction against the deployed contract: the externally callable
state-changing entry points, each with its caller and attached value. -/
inductive Op where
  | addFunds (sender : Addr) (value : Nat)
  | withdraw (sender : Addr) (withdrawAmount : Nat)
  | receive (value : Nat)
  | test1 (sender : Addr)
  | test2 (sender : Addr)

/-- One transaction: a reverted call leaves the state unchanged (the
environment's whole-call atomicity). -/
def step (s : State) (op : Op) : State :=
  match op with
  | Op.addFunds sender value => addFunds s sender value
  | Op.withdraw sender withdrawAmount =>
      match withdraw s sender withdrawAmount with
      | Except.ok t => t
      | Except.error _ => s
  | Op.receive value => receive s value
  | Op.test1 sender =>
      match test1 s sender with
      | Except.ok t => t
      | Except.error _ => s
  | Op.test2 sender =>
      match test2 s sender with
      | Except.ok t => t
      | Except.error _ => s

/-- Run a sequence of transactions. -/
def run (s : State) (ops : List Op) : State := ops.foldl step s

/-- The freshly constructed contract: the constructor of Owned.sol sets
`owner := msg.sender`; every mapping is at its default and the (non-payable)
deployment leaves the contract balance at `0`. -/
def deploy (deployer : Addr) (accounts : Addr → Nat) : State :=
  { owner := deployer
    numOfFunders := 0
    funders := fun _ => false
    lutFunders := fun _ => 0
    balance := 0
    accounts := accounts }

/-- The depositor identities of a transaction sequence, in call order, with
repetitions. -/
def depositors : List Op → List Addr
  | [] => []
  | Op.addFunds sender _ :: ops => sender :: depositors ops
  | Op.withdraw _ _ :: ops => depositors ops
  | Op.receive _ :: ops => depositors ops
  | Op.test1 _ :: ops => depositors ops
  | Op.test2 _ :: ops => depositors ops

/-- Spec-side notion: keep the first occurrence of each element, in order of
first occurrence.  "The distinct depositor identities, each appearing exactly
once, ordered by the time of each identity's first deposit." -/
def dedupFirst : List Addr → List Addr
  | [] => []
  | a :: l => a :: dedupFirst (l.filter fun x => x != a)
termination_by l => l.length
decreasing_by
  simp only [List.length_cons]
  exact Nat.lt_succ_of_le (List.length_filter_le _ _)

/-- The registry entries `addFunds` appends while running a list of deposit
senders against a given `funders` flag state: the algorithm of the contract,
written over lists. -/
def newFunders (flags : Addr → Bool) : List Addr → List Addr
  | [] => []
  | a :: l =>
      if flags a then newFunders flags l
      else a :: newFunders (fun x => if x = a then true else flags x) l

/-! ### Basic facts about the individual operations -/

theorem getAllFunders_length (s : State) :
    (getAllFunders s).length = s.numOfFunders := by
  simp [getAllFunders]

theorem getAllFunders_ext {s t : State}
    (h1 : t.numOfFunders = s.numOfFunders) (h2 : t.lutFunders = s.lutFunders) :
    getAllFunders t = getAllFunders s := by
  simp [getAllFunders, h1, h2]

theorem getAllFunders_deploy (d : Addr) (acc : Addr → Nat) :
    getAllFunders (deploy d acc) = [] := by
  simp [getAllFunders, deploy]

theorem addFunds_of_old {s : State} {a : Addr} (v : Nat)
    (h : s.funders a = true) :
    addFunds s a v = { s with balance := s.balance + v } := by
  simp [addFunds, test3, h]

theorem addFunds_of_new {s : State} {a : Addr} (v : Nat)
    (h : s.funders a = false) :
    addFunds s a v =
      { owner := s.owner
        numOfFunders := s.numOfFunders + 1
        funders := fun x => if x = a then true else s.funders x
        lutFunders := fun i => if i = s.numOfFunders then a else s.lutFunders i
        balance := s.balance + v
        accounts := s.accounts } := by
  simp [addFunds, test3, h]

theorem getAllFunders_addFunds_new {s : State} {a : Addr} (v : Nat)
    (h : s.funders a = false) :
    getAllFunders (addFunds s a v) = getAllFunders s ++ [a] := by
  rw [addFunds_of_new v h]
  simp only [getAllFunders, List.range_succ, List.map_append, List.map_cons,
    List.map_nil, if_pos rfl]
  congr 1
  apply List.map_congr_left
  intro i hi
  have hlt : i < s.numOfFunders := List.mem_range.mp hi
  exact if_neg (Nat.ne_of_lt hlt)

theorem registry_step_withdraw (s : State) (a : Addr) (m : Nat) :
    (step s (Op.withdraw a m)).numOfFunders = s.numOfFunders
    ∧ (step s (Op.withdraw a m)).funders = s.funders
    ∧ (step s (Op.withdraw a m)).lutFunders = s.lutFunders := by
  by_cases h1 : m ≤ 100000000000000000 <;>
    by_cases h2 : m ≤ s.balance <;>
      simp [step, withdraw, h1, h2]

theorem registry_step_receive (s : State) (v : Nat) :
    (step s (Op.receive v)).numOfFunders = s.numOfFunders
    ∧ (step s (Op.receive v)).funders = s.funders
    ∧ (step s (Op.receive v)).lutFunders = s.lutFunders := by
  simp [step, receive]

theorem registry_step_test1 (s : State) (a : Addr) :
    (step s (Op.test1 a)).numOfFunders = s.numOfFunders
    ∧ (step s (Op.test1 a)).funders = s.funders
    ∧ (step s (Op.test1 a)).lutFunders = s.lutFunders := by
  by_cases h : a = s.owner <;> simp [step, test1, h]

theorem registry_step_test2 (s : State) (a : Addr) :
    (step s (Op.test2 a)).numOfFunders = s.numOfFunders
    ∧ (step s (Op.test2 a)).funders = s.funders
    ∧ (step s (Op.test2 a)).lutFunders = s.lutFunders := by
  by_cases h : a = s.owner <;> simp [step, test2, h]

/-! ### The registry algorithm over lists -/

theorem newFunders_cons_pos {flags : Addr → Bool} {b : Addr} (l : List Addr)
    (h : flags b = true) :
    newFunders flags (b :: l) = newFunders flags l := by
  rw [newFunders, if_pos h]

theorem newFunders_cons_neg {flags : Addr → Bool} {b : Addr} (l : List Addr)
    (h : flags b = false) :
    newFunders flags (b :: l)
      = b :: newFunders (fun x => if x = b then true else flags x) l := by
  rw [newFunders, if_neg (by rw [h]; exact Bool.false_ne_true)]

theorem newFunders_mem (l : List Addr) :
    ∀ (flags : Addr → Bool) (a : Addr),
      a ∈ newFunders flags l ↔ a ∈ l ∧ flags a = false := by
  induction l with
  | nil => intro flags a; simp [newFunders]
  | cons b l ih =>
      intro flags a
      by_cases hb : flags b = true
      · rw [newFunders, if_pos hb, ih]
        constructor
        · rintro ⟨hmem, hfl⟩
          exact ⟨List.mem_cons_of_mem b hmem, hfl⟩
        · rintro ⟨hmem, hfl⟩
          rcases List.mem_cons.mp hmem with hab | hmem2
          · subst hab; rw [hb] at hfl; cases hfl
          · exact ⟨hmem2, hfl⟩
      · rw [newFunders, if_neg hb]
        rw [List.mem_cons, ih]
        by_cases hab : a = b
        · subst hab
          simp [Bool.eq_false_iff.mpr hb]
        · simp only [if_neg hab, List.mem_cons]
          constructor
          · rintro (h | ⟨hmem, hfl⟩)
            · exact absurd h hab
            · exact ⟨Or.inr hmem, hfl⟩
          · rintro ⟨hmem, hfl⟩
            rcases hmem with h | hmem2
            · exact absurd h hab
            · exact Or.inr ⟨hmem2, hfl⟩

theorem newFunders_nodup (l : List Addr) :
    ∀ flags : Addr → Bool, (newFunders flags l).Nodup := by
  induction l with
  | nil => intro flags; simp [newFunders]
  | cons b l ih =>
      intro flags
      by_cases hb : flags b = true
      · rw [newFunders, if_pos hb]; exact ih flags
      · rw [newFunders, if_neg hb]
        refine List.Nodup.cons ?_ (ih _)
        intro hmem
        have := ((newFunders_mem l _ b).mp hmem).2
        simp at this

theorem newFunders_eq_dedupFirst (l : List Addr) :
    ∀ flags : Addr → Bool,
      newFunders flags l = dedupFirst (l.filter fun x => !flags x) := by
  induction l with
  | nil => intro flags; simp [newFunders, dedupFirst]
  | cons b l ih =>
      intro flags
      by_cases hb : flags b = true
      · rw [newFunders, if_pos hb,
          List.filter_cons_of_neg (by simp [hb]), ih]
      · rw [newFunders, if_neg hb,
          List.filter_cons_of_pos (by simp [Bool.eq_false_iff.mpr hb]),
          dedupFirst, ih]
        congr 1
        rw [List.filter_filter]
        refine congrArg dedupFirst ?_
        apply List.filter_congr
        intro x _
        by_cases hxb : x = b
        · subst hxb; simp [hb]
        · simp [hxb]

theorem dedupFirst_eq_newFunders (l : List Addr) :
    dedupFirst l = newFunders (fun _ => false) l := by
  rw [newFunders_eq_dedupFirst]
  simp

theorem dedupFirst_mem (l : List Addr) (a : Addr) :
    a ∈ dedupFirst l ↔ a ∈ l := by
  rw [dedupFirst_eq_newFunders, newFunders_mem]
  simp

theorem dedupFirst_nodup (l : List Addr) : (dedupFirst l).Nodup := by
  rw [dedupFirst_eq_newFunders]; exact newFunders_nodup l _

/-! ### The registry over whole transaction sequences -/

theorem run_getAllFunders (ops : List Op) :
    ∀ s : State,
      getAllFunders (run s ops)
        = getAllFunders s ++ newFunders s.funders (depositors ops) := by
  induction ops with
  | nil => intro s; simp [run, depositors, newFunders]
  | cons op ops ih =>
      intro s
      have hrun : run s (op :: ops) = run (step s op) ops := rfl
      cases op with
      | addFunds a v =>
          by_cases hf : s.funders a = true
          · rw [hrun, ih]
            have hstep : step s (Op.addFunds a v) = addFunds s a v := rfl
            rw [hstep, addFunds_of_old v hf]
            simp only [depositors, newFunders, hf, if_pos]
            rfl
          · have hf2 : s.funders a = false := Bool.eq_false_iff.mpr hf
            rw [hrun, ih]
            have hstep : step s (Op.addFunds a v) = addFunds s a v := rfl
            rw [hstep, getAllFunders_addFunds_new v hf2,
              addFunds_of_new v hf2]
            simp only [depositors, newFunders, hf2]
            rw [if_neg (by simp), List.append_assoc]
            rfl
      | withdraw a m =>
          obtain ⟨h1, h2, h3⟩ := registry_step_withdraw s a m
          rw [hrun, ih, getAllFunders_ext h1 h3, h2]
          rfl
      | receive v =>
          obtain ⟨h1, h2, h3⟩ := registry_step_receive s v
          rw [hrun, ih, getAllFunders_ext h1 h3, h2]
          rfl
      | test1 a =>
          obtain ⟨h1, h2, h3⟩ := registry_step_test1 s a
          rw [hrun, ih, getAllFunders_ext h1 h3, h2]
          rfl
      | test2 a =>
          obtain ⟨h1, h2, h3⟩ := registry_step_test2 s a
          rw [hrun, ih, getAllFunders_ext h1 h3, h2]
          rfl

theorem run_funders (ops : List Op) :
    ∀ (s : State) (a : Addr),
      (run s ops).funders a = true
        ↔ s.funders a = true ∨ a ∈ newFunders s.funders (depositors ops) := by
  induction ops with
  | nil => intro s a; simp [run, depositors, newFunders]
  | cons op ops ih =>
      intro s a
      have hrun : run s (op :: ops) = run (step s op) ops := rfl
      cases op with
      | addFunds b v =>
          have hstep : step s (Op.addFunds b v) = addFunds s b v := rfl
          by_cases hf : s.funders b = true
          · rw [hrun, hstep, addFunds_of_old v hf, ih]
            simp only [depositors, newFunders, hf, if_pos]
          · have hf2 : s.funders b = false := Bool.eq_false_iff.mpr hf
            rw [hrun, hstep, addFunds_of_new v hf2, ih]
            simp only [depositors]
            rw [newFunders_cons_neg _ hf2]
            by_cases hab : a = b
            · subst hab
              simp [List.mem_cons]
            · simp only [if_neg hab, List.mem_cons]
              constructor
              · rintro (h | h)
                · exact Or.inl h
                · exact Or.inr (Or.inr h)
              · rintro (h | h | h)
                · exact Or.inl h
                · exact absurd h hab
                · exact Or.inr h
      | withdraw b m =>
          obtain ⟨h1, h2, h3⟩ := registry_step_withdraw s b m
          rw [hrun, ih, h2]
          rfl
      | receive v =>
          obtain ⟨h1, h2, h3⟩ := registry_step_receive s v
          rw [hrun, ih, h2]
          rfl
      | test1 b =>
          obtain ⟨h1, h2, h3⟩ := registry_step_test1 s b
          rw [hrun, ih, h2]
          rfl
      | test2 b =>
          obtain ⟨h1, h2, h3⟩ := registry_step_test2 s b
          rw [hrun, ih, h2]
          rfl

/-- Keys of `lutFunders` at or beyond `numOfFunders` were never written and
hold the mapping default `0`; this is preserved by every transaction. -/
def LutDefault (s : State) : Prop :=
  ∀ i : Nat, s.numOfFunders ≤ i → s.lutFunders i = 0

theorem lutDefault_step {s : State} (op : Op) (h : LutDefault s) :
    LutDefault (step s op) := by
  cases op with
  | addFunds b v =>
      have hstep : step s (Op.addFunds b v) = addFunds s b v := rfl
      by_cases hf : s.funders b = true
      · rw [hstep, addFunds_of_old v hf]
        exact h
      · have hf2 : s.funders b = false := Bool.eq_false_iff.mpr hf
        rw [hstep, addFunds_of_new v hf2]
        intro i hi
        simp only at hi ⊢
        rw [if_neg (Nat.ne_of_gt (Nat.lt_of_lt_of_le (Nat.lt_succ_self _) hi))]
        exact h i (Nat.le_of_succ_le hi)
  | withdraw b m =>
      obtain ⟨h1, h2, h3⟩ := registry_step_withdraw s b m
      intro i hi
      rw [h1] at hi
      rw [h3]
      exact h i hi
  | receive v =>
      obtain ⟨h1, h2, h3⟩ := registry_step_receive s v
      intro i hi
      rw [h1] at hi
      rw [h3]
      exact h i hi
  | test1 b =>
      obtain ⟨h1, h2, h3⟩ := registry_step_test1 s b
      intro i hi
      rw [h1] at hi
      rw [h3]
      exact h i hi
  | test2 b =>
      obtain ⟨h1, h2, h3⟩ := registry_step_test2 s b
      intro i hi
      rw [h1] at hi
      rw [h3]
      exact h i hi

theorem lutDefault_run (ops : List Op) :
    ∀ s : State, LutDefault s → LutDefault (run s ops) := by
  induction ops with
  | nil => intro s h; exact h
  | cons op ops ih =>
      intro s h
      exact ih (step s op) (lutDefault_step op h)

theorem lutDefault_deploy (d : Addr) (acc : Addr → Nat) :
    LutDefault (deploy d acc) := by
  intro i _
  rfl

theorem depositors_map (ds : List (Addr × Nat)) :
    depositors (ds.map fun p => Op.addFunds p.1 p.2) = ds.map Prod.fst := by
  induction ds with
  | nil => rfl
  | cons p ds ih => simp [depositors, ih]

theorem getAllFunders_getD {s : State} {i : Nat} (h : i < s.numOfFunders) :
    (getAllFunders s).getD i 0 = s.lutFunders i := by
  have hlen : i < (getAllFunders s).length := by
    rw [getAllFunders_length]; exact h
  rw [List.getD_eq_getElem _ _ hlen]
  simp [getAllFunders]

theorem lut_mem_getAllFunders {s : State} {p : Nat} (h : p < s.numOfFunders) :
    s.lutFunders p ∈ getAllFunders s := by
  exact List.mem_map.mpr ⟨p, List.mem_range.mpr h, rfl⟩

theorem lut_inj_of_nodup {s : State} (hnd : (getAllFunders s).Nodup)
    {p q : Nat} (hp : p < s.numOfFunders) (hq : q < s.numOfFunders)
    (hne : p ≠ q) : s.lutFunders p ≠ s.lutFunders q := by
  have hplen : p < (getAllFunders s).length := by
    rw [getAllFunders_length]; exact hp
  have hqlen : q < (getAllFunders s).length := by
    rw [getAllFunders_length]; exact hq
  have hgp : (getAllFunders s).get ⟨p, hplen⟩ = s.lutFunders p := by
    simp [getAllFunders]
  have hgq : (getAllFunders s).get ⟨q, hqlen⟩ = s.lutFunders q := by
    simp [getAllFunders]
  intro heq
  rw [← hgp, ← hgq] at heq
  have := (hnd.get_inj_iff).mp heq
  exact hne (congrArg Fin.val this)

/-! ### The claims -/

/-- C1: for every caller and every vault state, `withdraw` with an amount
strictly greater than 100000000000000000 wei (0.1 ether) fails with
`LimitExceeded`, and the reverted transaction leaves the whole state —
balance, `numOfFunders`, `lutFunders` order and `funders` flags — unchanged. -/
theorem withdraw_over_limit_rejected (s : State) (sender : Addr)
    (amount : Nat) (h : 100000000000000000 < amount) :
    withdraw s sender amount = Except.error VaultError.LimitExceeded
    ∧ step s (Op.withdraw sender amount) = s := by
  have hn : ¬ amount ≤ 100000000000000000 := Nat.not_le_of_lt h
  constructor
  · rw [withdraw, if_neg hn]
  · simp [step, withdraw, hn]

theorem withdraw_over_limit_rejected_witness :
    withdraw (deploy 0 fun _ => 0) 5 100000000000000001
      = Except.error VaultError.LimitExceeded :=
  (withdraw_over_limit_rejected (deploy 0 fun _ => 0) 5 100000000000000001
    (by decide)).1

/-- C2: for every requester (registered funder or not), `withdraw` with an
amount within the limit succeeds iff the vault balance covers the amount; on
success the vault balance decreases by exactly the amount and the requester's
external account increases by exactly the amount, with every other account
and all registry state unchanged; on insufficient balance it fails with
`InsufficientFunds` and the reverted transaction changes nothing. -/
theorem withdraw_within_limit_spec (s : State) (sender : Addr) (amount : Nat)
    (h : amount ≤ 100000000000000000) :
    ((∃ t, withdraw s sender amount = Except.ok t) ↔ amount ≤ s.balance)
    ∧ (∀ t, withdraw s sender amount = Except.ok t →
        t.balance + amount = s.balance
        ∧ t.accounts sender = s.accounts sender + amount
        ∧ (∀ a : Addr, a ≠ sender → t.accounts a = s.accounts a)
        ∧ t.numOfFunders = s.numOfFunders
        ∧ t.funders = s.funders
        ∧ t.lutFunders = s.lutFunders
        ∧ t.owner = s.owner)
    ∧ (s.balance < amount →
        withdraw s sender amount = Except.error VaultError.InsufficientFunds
        ∧ step s (Op.withdraw sender amount) = s) := by
  refine ⟨⟨?_, ?_⟩, ?_, ?_⟩
  · rintro ⟨t, ht⟩
    by_contra hb
    rw [withdraw, if_pos h, if_neg hb] at ht
    cases ht
  · intro hb
    exact ⟨_, by rw [withdraw, if_pos h, if_pos hb]⟩
  · intro t ht
    by_cases hb : amount ≤ s.balance
    · rw [withdraw, if_pos h, if_pos hb] at ht
      injection ht with ht2
      subst ht2
      refine ⟨Nat.sub_add_cancel hb, by simp, ?_, rfl, rfl, rfl, rfl⟩
      intro a ha
      simp [ha]
    · rw [withdraw, if_pos h, if_neg hb] at ht
      cases ht
  · intro hlt
    have hb : ¬ amount ≤ s.balance := Nat.not_le_of_lt hlt
    constructor
    · rw [withdraw, if_pos h, if_neg hb]
    · simp [step, withdraw, h, hb]

theorem withdraw_within_limit_spec_witness :
    ∃ t, withdraw
      { owner := 0, numOfFunders := 0, funders := fun _ => false,
        lutFunders := fun _ => 0, balance := 300000000000000000,
        accounts := fun _ => 0 } 7 100000000000000000 = Except.ok t :=
  ((withdraw_within_limit_spec
    { owner := 0, numOfFunders := 0, funders := fun _ => false,
      lutFunders := fun _ => 0, balance := 300000000000000000,
      accounts := fun _ => 0 } 7 100000000000000000 (by decide)).1).mpr
    (by decide)

/-- C3: after any finite sequence of deposits (arbitrary identities, amounts
and repetitions) against a fresh contract, `getAllFunders` returns exactly
the distinct depositor identities, each exactly once (`Nodup`), in order of
first deposit (`dedupFirst` keeps each identity's first occurrence, in
order). -/
theorem getAllFunders_deposit_history (d : Addr) (acc : Addr → Nat)
    (ds : List (Addr × Nat)) :
    getAllFunders (run (deploy d acc) (ds.map fun p => Op.addFunds p.1 p.2))
        = dedupFirst (ds.map Prod.fst)
    ∧ (∀ a : Addr,
        a ∈ getAllFunders
            (run (deploy d acc) (ds.map fun p => Op.addFunds p.1 p.2))
          ↔ a ∈ ds.map Prod.fst)
    ∧ (getAllFunders
        (run (deploy d acc) (ds.map fun p => Op.addFunds p.1 p.2))).Nodup := by
  have heq : getAllFunders
      (run (deploy d acc) (ds.map fun p => Op.addFunds p.1 p.2))
      = dedupFirst (ds.map Prod.fst) := by
    rw [run_getAllFunders, getAllFunders_deploy, depositors_map,
      dedupFirst_eq_newFunders]
    simp only [List.nil_append]
    rfl
  refine ⟨heq, ?_, ?_⟩
  · intro a
    rw [heq, dedupFirst_mem]
  · rw [heq]
    exact dedupFirst_nodup _

/-- C4: in every state reachable from deployment by any transaction sequence,
`numOfFunders` equals the length of the funder order, the funder order has no
duplicate identity, and the `funders` flag of an identity is set iff the
identity appears in the funder order. -/
theorem registry_invariants_reachable (d : Addr) (acc : Addr → Nat)
    (ops : List Op) :
    (getAllFunders (run (deploy d acc) ops)).length
        = (run (deploy d acc) ops).numOfFunders
    ∧ (getAllFunders (run (deploy d acc) ops)).Nodup
    ∧ (∀ a : Addr, (run (deploy d acc) ops).funders a = true
        ↔ a ∈ getAllFunders (run (deploy d acc) ops)) := by
  refine ⟨getAllFunders_length _, ?_, ?_⟩
  · rw [run_getAllFunders, getAllFunders_deploy]
    simp only [List.nil_append]
    exact newFunders_nodup _ _
  · intro a
    rw [run_funders, run_getAllFunders, getAllFunders_deploy]
    simp only [List.nil_append]
    simp [deploy]

/-- C5: a deposit from an identity whose `funders` flag is unset appends the
identity to the order at index equal to the pre-call `numOfFunders`, sets the
flag, and increments the count by one; the operation is total (it is a plain
function into `State`, with every attached amount, zero included,
accepted). -/
theorem addFunds_new_funder_effect (s : State) (sender : Addr) (value : Nat)
    (h : s.funders sender = false) :
    (addFunds s sender value).numOfFunders = s.numOfFunders + 1
    ∧ (addFunds s sender value).lutFunders s.numOfFunders = sender
    ∧ (addFunds s sender value).funders sender = true
    ∧ getAllFunders (addFunds s sender value) = getAllFunders s ++ [sender] := by
  refine ⟨?_, ?_, ?_, getAllFunders_addFunds_new value h⟩ <;>
    rw [addFunds_of_new value h] <;> simp

theorem addFunds_new_funder_effect_witness :
    getAllFunders (addFunds (deploy 0 fun _ => 0) 5 2)
      = getAllFunders (deploy 0 fun _ => 0) ++ [5] :=
  (addFunds_new_funder_effect (deploy 0 fun _ => 0) 5 2 rfl).2.2.2

/-- C6: a deposit from an identity whose `funders` flag is already set leaves
`numOfFunders`, the funder order and the flags unchanged, and only grows the
contract balance by the attached amount. -/
theorem addFunds_existing_funder_frame (s : State) (sender : Addr)
    (value : Nat) (h : s.funders sender = true) :
    (addFunds s sender value).numOfFunders = s.numOfFunders
    ∧ (addFunds s sender value).funders = s.funders
    ∧ (addFunds s sender value).lutFunders = s.lutFunders
    ∧ getAllFunders (addFunds s sender value) = getAllFunders s
    ∧ (addFunds s sender value).balance = s.balance + value := by
  rw [addFunds_of_old value h]
  exact ⟨rfl, rfl, rfl, rfl, rfl⟩

theorem addFunds_existing_funder_frame_witness :
    (addFunds (addFunds (deploy 0 fun _ => 0) 5 1) 5 3).balance
      = (addFunds (deploy 0 fun _ => 0) 5 1).balance + 3 :=
  (addFunds_existing_funder_frame (addFunds (deploy 0 fun _ => 0) 5 1) 5 3
    (by decide)).2.2.2.2

/-- C7: `getFunderAtIndex` is total on its `uint8` domain and, in every
reachable state, returns the i-th distinct depositor in first-deposit order
when the index is below `numOfFunders`, and the zero/default identity `0`
otherwise (`List.getD` with default `0` is exactly that case split). -/
theorem getFunderAtIndex_total_spec (d : Addr) (acc : Addr → Nat)
    (ops : List Op) (index : Fin 256) :
    getFunderAtIndex (run (deploy d acc) ops) index
      = (dedupFirst (depositors ops)).getD index.val 0 := by
  have hfo : getAllFunders (run (deploy d acc) ops)
      = dedupFirst (depositors ops) := by
    rw [run_getAllFunders, getAllFunders_deploy, dedupFirst_eq_newFunders]
    simp only [List.nil_append]
    rfl
  rw [← hfo]
  by_cases h : index.val < (run (deploy d acc) ops).numOfFunders
  · rw [getAllFunders_getD h]
    rfl
  · have h2 : (run (deploy d acc) ops).numOfFunders ≤ index.val :=
      Nat.le_of_not_lt h
    rw [List.getD_eq_default _ _ (by rw [getAllFunders_length]; exact h2)]
    exact lutDefault_run ops _ (lutDefault_deploy d acc) index.val h2

/-- C8: each of the two admin operations fails with `NotAuthorized` exactly
when the caller is not the owner, and succeeds exactly when the caller is the
owner, in which case the returned state is the input state unchanged. -/
theorem admin_onlyOwner_gating (s : State) (sender : Addr) :
    (test1 s sender = Except.error VaultError.NotAuthorized
      ↔ sender ≠ s.owner)
    ∧ (test1 s sender = Except.ok s ↔ sender = s.owner)
    ∧ (test2 s sender = Except.error VaultError.NotAuthorized
      ↔ sender ≠ s.owner)
    ∧ (test2 s sender = Except.ok s ↔ sender = s.owner) := by
  by_cases h : sender = s.owner <;> simp [test1, test2, h]

/-- C9: value received directly through `receive()` increases the contract
balance by the attached amount and changes nothing else: count, flags, order,
owner and external accounts are untouched, and the operation is total. -/
theorem receive_frame_effect (s : State) (value : Nat) :
    (receive s value).balance = s.balance + value
    ∧ (receive s value).numOfFunders = s.numOfFunders
    ∧ (receive s value).funders = s.funders
    ∧ (receive s value).lutFunders = s.lutFunders
    ∧ (receive s value).owner = s.owner
    ∧ (receive s value).accounts = s.accounts :=
  ⟨rfl, rfl, rfl, rfl, rfl, rfl⟩

/-- Transaction sequence with 257 distinct depositors, used to witness C10. -/
def c10ops : List Op := (List.range 257).map fun i => Op.addFunds (i + 1) 0

/-- C10: the index parameter of `getFunderAtIndex` is 8-bit, so in a
reachable state with more than 256 funders, a funder at a position at or
beyond 256 is returned by `getAllFunders` yet differs from
`getFunderAtIndex`'s result at every expressible index argument. -/
theorem getFunderAtIndex_uint8_unreachable (d : Addr) (acc : Addr → Nat)
    (ops : List Op) (p : Nat) (h256 : 256 ≤ p)
    (hp : p < (run (deploy d acc) ops).numOfFunders) :
    (run (deploy d acc) ops).lutFunders p
        ∈ getAllFunders (run (deploy d acc) ops)
    ∧ ∀ index : Fin 256,
        getFunderAtIndex (run (deploy d acc) ops) index
          ≠ (run (deploy d acc) ops).lutFunders p := by
  have hnd : (getAllFunders (run (deploy d acc) ops)).Nodup := by
    rw [run_getAllFunders, getAllFunders_deploy]
    simp only [List.nil_append]
    exact newFunders_nodup _ _
  refine ⟨lut_mem_getAllFunders hp, ?_⟩
  intro index
  have hlt : index.val < p := Nat.lt_of_lt_of_le index.isLt h256
  exact lut_inj_of_nodup hnd (Nat.lt_trans hlt hp) hp (Nat.ne_of_lt hlt)

set_option maxRecDepth 8000 in
theorem getFunderAtIndex_uint8_unreachable_witness :
    256 ≤ 256
    ∧ 256 < (run (deploy 0 fun _ => 0) c10ops).numOfFunders
    ∧ ((run (deploy 0 fun _ => 0) c10ops).lutFunders 256
          ∈ getAllFunders (run (deploy 0 fun _ => 0) c10ops)
        ∧ ∀ index : Fin 256,
            getFunderAtIndex (run (deploy 0 fun _ => 0) c10ops) index
              ≠ (run (deploy 0 fun _ => 0) c10ops).lutFunders 256) := by
  have hlt : 256 < (run (deploy 0 fun _ => 0) c10ops).numOfFunders := by
    decide
  exact ⟨Nat.le_refl 256, hlt,
    getFunderAtIndex_uint8_unreachable 0 (fun _ => 0) c10ops 256
      (Nat.le_refl 256) hlt⟩

end Faucet
